import Mathlib

/-!
Verification of the parallel CSV processing pipeline in csv_multi.py.

The file contents are modelled as lists of characters (the inputs in scope are
ASCII text, so byte counts and character counts agree, and the model reads and
writes the plain newline character: the carriage returns produced by the csv
writer and removed again by universal-newline text reads cancel out end to end).
Records are ordered association lists from field name to value, mirroring
Python dict insertion order.  The csv dialect modelled is the unquoted one:
fields containing delimiters, quote characters or newlines are outside the
modelled domain and are excluded by the well-formedness hypotheses.
-/

namespace CsvMulti

/-- the READ_BUFFER constant of csv_multi.py (2**13). -/
def READ_BUFFER : Nat := 2 ^ 13

/-- Python file.readline: the consumed line (keeping its terminating newline,
if any) together with the rest of the stream. -/
def readLine : List Char → List Char × List Char
  | [] => ([], [])
  | ch :: rest =>
    if ch = '\n' then ([ch], rest)
    else
      let p := readLine rest
      (ch :: p.1, p.2)

/-- Remove one trailing newline from a line, as the csv reader does before
splitting a physical line into fields. -/
def stripNl (l : List Char) : List Char :=
  if l.getLast? = some '\n' then l.dropLast else l

/-- Split a newline-free line into comma-separated fields (the csv reader on
the unquoted dialect). -/
def splitComma : List Char → List (List Char)
  | [] => [[]]
  | ch :: rest =>
    if ch = ',' then [] :: splitComma rest
    else
      match splitComma rest with
      | [] => [[ch]]
      | fld :: flds => (ch :: fld) :: flds

/-- Join fields with commas (the csv writer on the unquoted dialect). -/
def joinComma : List (List Char) → List Char
  | [] => []
  | [fld] => fld
  | fld :: flds => fld ++ ',' :: joinComma flds

/-- Cut a character stream into its physical lines; every piece except
possibly the last ends with a newline. -/
def splitLines : List Char → List (List Char)
  | [] => []
  | ch :: rest =>
    if ch = '\n' then ['\n'] :: splitLines rest
    else
      match splitLines rest with
      | [] => [[ch]]
      | l :: ls => (ch :: l) :: ls

/-- Parse one physical line into its field list. -/
def parseLine (l : List Char) : List (List Char) :=
  splitComma (stripNl l)

/-- The data rows of a record body, as field lists: csv.DictReader iterates
the physical lines, skipping blank ones. -/
def csvRows (body : List Char) : List (List (List Char)) :=
  (splitLines body).filterMap (fun l =>
    if stripNl l = [] then none else some (splitComma (stripNl l)))

/-- os.path.getsize of the input, in characters (ASCII: equal to bytes). -/
def total_file_size (c : List Char) : Nat := c.length

/-- The copy loop of split (lines 29-32): while this_file_size stays below
1.0 * total_file_size / num_chunks, append a read of READ_BUFFER characters and
add READ_BUFFER to this_file_size (whether or not that many characters were
actually available).  The float comparison this_file_size < total/num is exact
for file sizes below 2^53 and is modelled by the equivalent integer comparison
this_file_size * num < total.  The first argument is recursion fuel; fuel
equal to total is always enough for the guard to be the one that stops the
loop (proved below), so split instantiates it with total. -/
def splitCopyLoop (total num : Nat) : Nat → Nat → List Char → List Char × List Char
  | 0, _, rem => ([], rem)
  | fuel + 1, this_file_size, rem =>
    if this_file_size * num < total then
      let p := splitCopyLoop total num fuel (this_file_size + READ_BUFFER) (rem.drop READ_BUFFER)
      (rem.take READ_BUFFER ++ p.1, p.2)
    else ([], rem)

/-- The chunk-producing loop of split (lines 26-34): each of the num_chunks
chunk files receives a copy of the header, then the copy loop's output, then
one more whole line read to absorb the partial record at the buffer boundary.
The shared read cursor (rem) advances from one chunk to the next. -/
def splitChunksAux (total num : Nat) (header : List Char) : Nat → List Char → List (List Char)
  | 0, _ => []
  | k + 1, rem =>
    let p := splitCopyLoop total num total 0 rem
    let q := readLine p.2
    (header ++ p.1 ++ q.1) :: splitChunksAux total num header k q.2

/-- split on a readable file, as the list of chunk file contents. -/
def splitPure (c : List Char) (num_chunks : Nat) : List (List Char) :=
  splitChunksAux (total_file_size c) num_chunks (readLine c).1 num_chunks (readLine c).2

/-- The Python exception kinds the pipeline can raise. -/
inductive PyError
  | ioError
  | zeroDivisionError
  | transformError
  | valueError
deriving DecidableEq

/-- split including its failure behaviour: os.path.getsize/open raise IOError
when the source path is unreadable (modelled as the none case), and the
target-size division raises ZeroDivisionError when num_chunks is zero.  No
other input is rejected. -/
def split (file : Option (List Char)) (num_chunks : Nat) : Except PyError (List (List Char)) :=
  match file with
  | none => .error .ioError
  | some c => if num_chunks = 0 then .error .zeroDivisionError else .ok (splitPure c num_chunks)

/-- A record, as csv.DictReader/DictWriter see it: an insertion-ordered
association list from field name to value. -/
abbrev Record := List (List Char × List Char)

/-- Python dict lookup on the association-list model (first match). -/
def lookupField : Record → List Char → Option (List Char)
  | [], _ => none
  | kv :: rest, k => if kv.1 = k then some kv.2 else lookupField rest k

/-- The probe record of process_one_file: every input field bound to the
neutral placeholder (the int 0 in the source, rendered as the character 0). -/
def probeRecord (fns : List (List Char)) : Record :=
  fns.map (fun fn => (fn, ['0']))

/-- csv.DictReader's pairing of the header's field names with one row's
values.  The modelled domain (equal arity, enforced by the well-formedness
hypotheses) needs no restval padding and no restkey overflow. -/
def mkRecord (fns : List (List Char)) (vals : List (List Char)) : Record :=
  List.zip fns vals

/-- csv.DictWriter.writerow: each output field is the record's value for that
key, or restval (the empty string) when the key is absent. -/
def serializeRow (keys : List (List Char)) (row : Record) : List Char :=
  joinComma (keys.map (fun k => (lookupField row k).getD [])) ++ ['\n']

/-- csv.DictWriter.writeheader: the field names themselves as one line. -/
def writeHeaderLine (keys : List (List Char)) : List Char :=
  joinComma keys ++ ['\n']

/-- The output field order process_one_file derives (lines 42-45): original
fields that survive the transformation of the probe, in input order, then the
newly introduced fields in probe insertion order. -/
def derivedOrder (fns : List (List Char)) (f : Record → Record) : List (List Char) :=
  let fake_row := f (probeRecord fns)
  let outkeys := fake_row.map Prod.fst
  fns.filter (fun x => x ∈ outkeys) ++ outkeys.filter (fun x => ¬ x ∈ fns)

/-- The row loop of process_one_file (lines 48-50): transform each record and
serialize it; DictWriter's extrasaction=raise turns a transformed record
holding a key outside the derived field order into a ValueError. -/
def processRows (Tf : Record → Except PyError Record) (fns sorted_outkeys : List (List Char)) :
    List (List (List Char)) → Except PyError (List Char)
  | [] => .ok []
  | vals :: rest =>
    match Tf (mkRecord fns vals) with
    | .error e => .error e
    | .ok row =>
      if row.all (fun kv => kv.1 ∈ sorted_outkeys) then
        match processRows Tf fns sorted_outkeys rest with
        | .error e => .error e
        | .ok tail => .ok (serializeRow sorted_outkeys row ++ tail)
      else .error .valueError

/-- process_one_file (lines 38-50): read the chunk's header, probe the
transformer for the output schema, derive the output field order, then write
one header line followed by every transformed record. -/
def process_one_file (Tf : Record → Except PyError Record) (chunk : List Char) :
    Except PyError (List Char) :=
  let fieldnames := parseLine (readLine chunk).1
  match Tf (probeRecord fieldnames) with
  | .error e => .error e
  | .ok fake_row =>
    let outkeys := fake_row.map Prod.fst
    let sorted_outkeys :=
      fieldnames.filter (fun x => x ∈ outkeys) ++ outkeys.filter (fun x => ¬ x ∈ fieldnames)
    match processRows Tf fieldnames sorted_outkeys (csvRows (readLine chunk).2) with
    | .error e => .error e
    | .ok bodyOut => .ok (writeHeaderLine sorted_outkeys ++ bodyOut)

/-- the identity example transformer (lines 53-55). -/
def identity (row : Record) : Record := row

/-- the field name new_column used by the demo transformer. -/
def newColumnField : List Char := ['n', 'e', 'w', '_', 'c', 'o', 'l', 'u', 'm', 'n']

/-- the constant default_value written by the demo transformer. -/
def defaultValueChars : List Char := ['d', 'e', 'f', 'a', 'u', 'l', 't', '_', 'v', 'a', 'l', 'u', 'e']

/-- Python dict item assignment: update the value in place when the key is
already present (keeping its position), otherwise append the new binding. -/
def dictSet (row : Record) (k v : List Char) : Record :=
  if row.any (fun kv => kv.1 = k) then
    row.map (fun kv => if kv.1 = k then (kv.1, v) else kv)
  else row ++ [(k, v)]

/-- the add_a_column example transformer (lines 58-60). -/
def add_a_column (row : Record) : Record :=
  dictSet row newColumnField defaultValueChars

/-- Lift a non-raising per-record function to the transformer interface. -/
def pureTf (f : Record → Record) : Record → Except PyError Record :=
  fun row => .ok (f row)

/-- merge (lines 81-96): write the header line of the first transformed
chunk once, then for every transformed chunk (the first included) skip its
header line and stream the remaining bytes verbatim.  The empty case is
unreachable in the pipeline (Python would raise IndexError on rlist[0]). -/
def merge : List (List Char) → List Char
  | [] => []
  | first :: rest =>
    (readLine first).1 ++ ((first :: rest).map (fun s => (readLine s).2)).flatten

/-- The observable outcome of one process_csv run. -/
inductive RunOutcome
  | finished (out : List Char)
  | deadlock
deriving DecidableEq

/-- Whether a worker died with an exception instead of producing a chunk. -/
def isWorkerError : Except PyError (List Char) → Bool
  | .error _ => true
  | .ok _ => false

/-- The per-chunk worker results: process_csv starts one CSVProcessor per
chunk, and each worker runs process_one_file on its chunk. -/
def workerOutputs (cpu_count : Nat) (c : List Char) (Tf : Record → Except PyError Record) :
    List (Except PyError (List Char)) :=
  (splitPure c cpu_count).map (process_one_file Tf)

/-- What the results queue holds once all workers have exited: each surviving
worker enqueued (proc_num, its output); a worker that died enqueued nothing. -/
def collectQueue (outs : List (Except PyError (List Char))) : List (Nat × List Char) :=
  outs.enum.filterMap (fun p =>
    match p.2 with
    | .ok o => some (p.1, o)
    | .error _ => none)

/-- rlist.sort() on (proc_num, result) pairs: with the distinct proc_num keys
the lexicographic tuple sort is exactly a sort by index, modelled by any
correct sort; result uniqueness over arrival permutations is proved below. -/
def sortByIndex (l : List (Nat × List Char)) : List (Nat × List Char) :=
  l.insertionSort (fun a b => a.1 ≤ b.1)

/-- process_csv (lines 99-123) with the queue arrival order made explicit:
split with the DEFAULT chunk count (cpu_count: the max_procs parameter is
never used), run one worker per chunk, collect the results.  If any worker
raised, it exited without enqueueing its result, so the collection loop's
final results.get() blocks forever: the run deadlocks, merge is never reached
and no output file is created.  Otherwise the collected pairs (in whatever
order the queue delivered them) are sorted by index and merged. -/
def process_csv_arrivals (cpu_count : Nat) (c : List Char) (Tf : Record → Except PyError Record)
    (max_procs : Nat) (arrival : List (Nat × List Char)) : RunOutcome :=
  if (workerOutputs cpu_count c Tf).any isWorkerError then .deadlock
  else .finished (merge ((sortByIndex arrival).map Prod.snd))

/-- process_csv with the canonical (index-order) queue arrival. -/
def process_csv (cpu_count : Nat) (c : List Char) (Tf : Record → Except PyError Record)
    (max_procs : Nat) : RunOutcome :=
  process_csv_arrivals cpu_count c Tf max_procs (collectQueue (workerOutputs cpu_count c Tf))

/-- Fields of the source file: the parsed header line. -/
def fieldnamesOf (c : List Char) : List (List Char) :=
  parseLine (readLine c).1

/-- Data rows of the source file: the parsed record body. -/
def bodyRows (c : List Char) : List (List (List Char)) :=
  csvRows (readLine c).2

/-- A cell value inside the modelled (unquoted, single-line) csv dialect. -/
def CleanCell (v : List Char) : Prop :=
  ',' ∉ v ∧ '\n' ∉ v ∧ '\r' ∉ v ∧ '\"' ∉ v

/-- A well-formed input file for the record-level claims: distinct field
names, a non-blank header line, contents inside the modelled dialect, and
every data row with exactly one value per field. -/
def WellFormed (c : List Char) : Prop :=
  (fieldnamesOf c).Nodup ∧ stripNl (readLine c).1 ≠ [] ∧ '\r' ∉ c ∧ '\"' ∉ c ∧
    ∀ vals ∈ bodyRows c, vals.length = (fieldnamesOf c).length

/-- A transformer that fits the probe-derived schema on this input: on every
record of the file it only produces fields of the derived output order, and
the fields it introduces (names and values) stay inside the modelled csv
dialect. -/
def TransformerOk (c : List Char) (f : Record → Record) : Prop :=
  (∀ k ∈ derivedOrder (fieldnamesOf c) f, CleanCell k) ∧
    ∀ vals ∈ bodyRows c, ∀ kv ∈ f (mkRecord (fieldnamesOf c) vals),
      kv.1 ∈ derivedOrder (fieldnamesOf c) f ∧ CleanCell kv.2

/-- The per-chunk byte target the source's copy loop compares against:
1.0 * total_file_size / num_chunks, with total_file_size the WHOLE file size
(header line included). -/
def split_code_target (c : List Char) (n : Nat) : ℚ :=
  (total_file_size c : ℚ) / n

/-- Modelled from the spec: the target the spec describes, totalBodySize
divided by chunkCount where totalBodySize excludes the header line's length. -/
def split_spec_target (c : List Char) (n : Nat) : ℚ :=
  ((total_file_size c - (readLine c).1.length : Nat) : ℚ) / n

/-- Modelled from the spec: the derived output field order as the spec words
it, for comparison with the order process_one_file computes. -/
def specOutputOrder (fns outkeys : List (List Char)) : List (List Char) :=
  fns.filter (fun x => x ∈ outkeys) ++ outkeys.filter (fun x => ¬ x ∈ fns)

/-- Number of reads the copy loop performs per chunk: the least k with
k * READ_BUFFER * num at least total. -/
def chunkReads (c : List Char) (n : Nat) : Nat :=
  (total_file_size c + READ_BUFFER * n - 1) / (READ_BUFFER * n)

/-- How many more reads the copy loop performs once its counter stands at
cnt: the least k with (cnt + k * READ_BUFFER) * num at least total. -/
def loopSteps (total num cnt : Nat) : Nat :=
  (total - cnt * num + READ_BUFFER * num - 1) / (READ_BUFFER * num)

/-- The transformed chunk a worker produces from chunk ch of file c under the
non-raising transformer f (proved below to be what process_one_file returns):
the derived header line followed by the chunk's transformed, serialized
records. -/
def chunkOut (c : List Char) (f : Record → Record) (ch : List Char) : List Char :=
  writeHeaderLine (derivedOrder (fieldnamesOf c) f)
    ++ ((csvRows (ch.drop (readLine c).1.length)).map (fun vals =>
          serializeRow (derivedOrder (fieldnamesOf c) f)
            (f (mkRecord (fieldnamesOf c) vals)))).flatten

/-- A transformer that raises on the record whose a-field is the string boom
(claim C3's failing transformer). -/
def transform_raises (row : Record) : Except PyError Record :=
  if lookupField row (['a']) = some (['b', 'o', 'o', 'm'])
  then .error .transformError else .ok row

/-- A three-row input whose second row triggers transform_raises. -/
def failingInput : List Char :=
  ['a', '\n', '1', '\n', 'b', 'o', 'o', 'm', '\n', '3', '\n']

/-- A transformer whose output schema depends on the record's values: it adds
a field k on the row whose a-field is x but not on the probe record. -/
def schemaCexTf (row : Record) : Record :=
  if lookupField row (['a']) = some (['x']) then row ++ [((['k']), (['v']))] else row

/-- The one-row input on which schemaCexTf adds its extra field. -/
def schemaCexInput : List Char := ['a', '\n', 'x', '\n']

/-- An input whose header already contains the demo transformer's new_column
field. -/
def dupColumnInput : List Char := newColumnField ++ ['\n', 'x', '\n']

/-- What the pipeline produces on dupColumnInput: the header is unchanged
(new_column is not appended a second time) and the single row's value is
overwritten with default_value. -/
def dupColumnOut : List Char :=
  newColumnField ++ ['\n'] ++ defaultValueChars ++ ['\n']

instance (v : List Char) : Decidable (CleanCell v) :=
  inferInstanceAs (Decidable (_ ∧ _ ∧ _ ∧ _))

instance (c : List Char) : Decidable (WellFormed c) :=
  inferInstanceAs (Decidable (_ ∧ _ ∧ _ ∧ _ ∧ _))

instance (c : List Char) (f : Record → Record) : Decidable (TransformerOk c f) :=
  inferInstanceAs (Decidable (_ ∧ _))

/-! Basic facts about the line and field primitives. -/

theorem readLine_append (l : List Char) : (readLine l).1 ++ (readLine l).2 = l := by
  induction l with
  | nil => rfl
  | cons ch rest ih =>
    by_cases h : ch = '\n'
    · simp [readLine, h]
    · simp [readLine, h, ih]

theorem readLine_cases (l : List Char) :
    ('\n' ∉ (readLine l).1 ∧ (readLine l).2 = []) ∨
      ∃ a, (readLine l).1 = a ++ ['\n'] ∧ '\n' ∉ a := by
  induction l with
  | nil => exact Or.inl ⟨by simp [readLine], rfl⟩
  | cons ch rest ih =>
    by_cases h : ch = '\n'
    · exact Or.inr ⟨[], by simp [readLine, h], by simp⟩
    · rcases ih with ⟨h1, h2⟩ | ⟨a, ha, hna⟩
      · refine Or.inl ⟨?_, by simp [readLine, h, h2]⟩
        simp only [readLine, if_neg h]
        intro hmem
        rcases List.mem_cons.mp hmem with heq | hmem
        · exact h heq.symm
        · exact h1 hmem
      · refine Or.inr ⟨ch :: a, by simp [readLine, h, ha], ?_⟩
        intro hmem
        rcases List.mem_cons.mp hmem with heq | hmem
        · exact h heq.symm
        · exact hna hmem

theorem readLine_noNl {l : List Char} (h : '\n' ∉ l) : readLine l = (l, []) := by
  induction l with
  | nil => rfl
  | cons ch rest ih =>
    have hch : ch ≠ '\n' := fun heq => h (heq ▸ List.mem_cons_self ch rest)
    have hrest : '\n' ∉ rest := fun hmem => h (List.mem_cons_of_mem ch hmem)
    simp [readLine, hch, ih hrest]

theorem readLine_prefix {a : List Char} (h : '\n' ∉ a) (x : List Char) :
    readLine (a ++ '\n' :: x) = (a ++ ['\n'], x) := by
  induction a with
  | nil => simp [readLine]
  | cons c a' ih =>
    have hc : c ≠ '\n' := fun heq => h (heq ▸ List.mem_cons_self c a')
    have ha' : '\n' ∉ a' := fun hmem => h (List.mem_cons_of_mem c hmem)
    simp [readLine, hc, ih ha']

theorem stripNl_concat (a : List Char) : stripNl (a ++ ['\n']) = a := by
  simp [stripNl]

theorem stripNl_noNl {l : List Char} (h : '\n' ∉ l) : stripNl l = l := by
  unfold stripNl
  split
  · next hlast =>
    obtain ⟨hne, heq⟩ := @List.mem_getLast?_eq_getLast Char _ '\n' hlast
    exact absurd (heq ▸ List.getLast_mem hne) h
  · rfl

theorem splitComma_ne_nil (l : List Char) : splitComma l ≠ [] := by
  induction l with
  | nil => simp [splitComma]
  | cons ch rest ih =>
    by_cases h : ch = ','
    · simp [splitComma, h]
    · simp only [splitComma, if_neg h]
      cases hsc : splitComma rest with
      | nil => simp
      | cons f fs => simp

theorem splitComma_mem {l x : List Char} (hx : x ∈ splitComma l) :
    ',' ∉ x ∧ ∀ ch ∈ x, ch ∈ l := by
  induction l generalizing x with
  | nil =>
    simp only [splitComma, List.mem_singleton] at hx
    subst hx; simp
  | cons ch rest ih =>
    by_cases h : ch = ','
    · simp only [splitComma, if_pos h, List.mem_cons] at hx
      rcases hx with rfl | hx
      · simp
      · obtain ⟨h1, h2⟩ := ih hx
        exact ⟨h1, fun c hc => List.mem_cons_of_mem _ (h2 c hc)⟩
    · simp only [splitComma, if_neg h] at hx
      cases hsc : splitComma rest with
      | nil => exact absurd hsc (splitComma_ne_nil rest)
      | cons f fs =>
        rw [hsc] at hx
        rcases List.mem_cons.mp hx with rfl | hx
        · obtain ⟨h1, h2⟩ := ih (hsc ▸ List.mem_cons_self f fs)
          constructor
          · intro hc
            rcases List.mem_cons.mp hc with hc | hc
            · exact h hc.symm
            · exact h1 hc
          · intro c hc
            rcases List.mem_cons.mp hc with rfl | hc
            · exact List.mem_cons_self c rest
            · exact List.mem_cons_of_mem _ (h2 c hc)
        · obtain ⟨h1, h2⟩ := ih (hsc ▸ List.mem_cons_of_mem f hx)
          exact ⟨h1, fun c hc => List.mem_cons_of_mem _ (h2 c hc)⟩

theorem joinComma_splitComma (l : List Char) : joinComma (splitComma l) = l := by
  induction l with
  | nil => rfl
  | cons ch rest ih =>
    by_cases h : ch = ','
    · subst h
      simp only [splitComma, if_pos rfl]
      cases hsc : splitComma rest with
      | nil => exact absurd hsc (splitComma_ne_nil rest)
      | cons f fs =>
        rw [hsc] at ih
        simp [joinComma, ih]
    · simp only [splitComma, if_neg h]
      cases hsc : splitComma rest with
      | nil => exact absurd hsc (splitComma_ne_nil rest)
      | cons f fs =>
        rw [hsc] at ih
        cases fs with
        | nil => simp [joinComma] at ih ⊢; exact ih
        | cons g gs => simp [joinComma] at ih ⊢; exact ih

theorem splitComma_noComma {a : List Char} (h : ',' ∉ a) : splitComma a = [a] := by
  induction a with
  | nil => rfl
  | cons c a' ih =>
    have hc : c ≠ ',' := fun heq => h (heq ▸ List.mem_cons_self c a')
    have ha' : ',' ∉ a' := fun hmem => h (List.mem_cons_of_mem c hmem)
    simp [splitComma, hc, ih ha']

theorem splitComma_append {a : List Char} (h : ',' ∉ a) (r : List Char) :
    splitComma (a ++ ',' :: r) = a :: splitComma r := by
  induction a with
  | nil => simp [splitComma]
  | cons c a' ih =>
    have hc : c ≠ ',' := fun heq => h (heq ▸ List.mem_cons_self c a')
    have ha' : ',' ∉ a' := fun hmem => h (List.mem_cons_of_mem c hmem)
    show splitComma (c :: (a' ++ ',' :: r)) = (c :: a') :: splitComma r
    simp only [splitComma, if_neg hc]
    rw [ih ha']

theorem splitComma_joinComma {fs : List (List Char)} (hne : fs ≠ [])
    (hcf : ∀ f ∈ fs, ',' ∉ f) : splitComma (joinComma fs) = fs := by
  induction fs with
  | nil => exact absurd rfl hne
  | cons f gs ih =>
    cases gs with
    | nil =>
      simp only [joinComma]
      exact splitComma_noComma (hcf f (List.mem_cons_self f []))
    | cons g gs' =>
      have hf : ',' ∉ f := hcf f (List.mem_cons_self f _)
      have hrest : ∀ x ∈ g :: gs', ',' ∉ x := fun x hx => hcf x (List.mem_cons_of_mem f hx)
      have hrec := ih (by simp) hrest
      simp only [joinComma, splitComma_append hf, hrec]

theorem mem_joinComma {fs : List (List Char)} {ch : Char} (h : ch ∈ joinComma fs) :
    ch = ',' ∨ ∃ f ∈ fs, ch ∈ f := by
  induction fs with
  | nil => simp [joinComma] at h
  | cons f gs ih =>
    cases gs with
    | nil =>
      simp only [joinComma] at h
      exact Or.inr ⟨f, List.mem_cons_self f [], h⟩
    | cons g gs' =>
      simp only [joinComma, List.mem_append, List.mem_cons] at h
      rcases h with h | h | h
      · exact Or.inr ⟨f, List.mem_cons_self f _, h⟩
      · exact Or.inl h
      · rcases ih h with h | ⟨x, hx, hch⟩
        · exact Or.inl h
        · exact Or.inr ⟨x, List.mem_cons_of_mem f hx, hch⟩

theorem splitLines_cons_ne {c : Char} (hc : c ≠ '\n') (rest : List Char) :
    splitLines (c :: rest) =
      match splitLines rest with
      | [] => [[c]]
      | l :: ls => (c :: l) :: ls := by
  simp only [splitLines, if_neg hc]

theorem splitLines_ne_nil {l : List Char} (h : l ≠ []) : splitLines l ≠ [] := by
  cases l with
  | nil => exact absurd rfl h
  | cons ch rest =>
    by_cases hch : ch = '\n'
    · simp [splitLines, hch]
    · simp only [splitLines, if_neg hch]
      cases hsl : splitLines rest with
      | nil => simp
      | cons p ps => simp

theorem splitLines_append_nl (a b : List Char) :
    splitLines (a ++ '\n' :: b) = splitLines (a ++ ['\n']) ++ splitLines b := by
  induction a with
  | nil => simp [splitLines]
  | cons c a' ih =>
    by_cases hc : c = '\n'
    · simp [splitLines, hc, ih]
    · show splitLines (c :: (a' ++ '\n' :: b)) = splitLines (c :: (a' ++ ['\n'])) ++ splitLines b
      simp only [splitLines, if_neg hc]
      rw [ih]
      cases hsl : splitLines (a' ++ ['\n']) with
      | nil => exact absurd hsl (splitLines_ne_nil (by simp))
      | cons p ps => simp

theorem splitLines_concat_noNl {a : List Char} (h : '\n' ∉ a) :
    splitLines (a ++ ['\n']) = [a ++ ['\n']] := by
  induction a with
  | nil => simp [splitLines]
  | cons c a' ih =>
    have hc : c ≠ '\n' := fun heq => h (heq ▸ List.mem_cons_self c a')
    have ha' : '\n' ∉ a' := fun hmem => h (List.mem_cons_of_mem c hmem)
    show splitLines (c :: (a' ++ ['\n'])) = [c :: (a' ++ ['\n'])]
    simp only [splitLines, if_neg hc]
    rw [ih ha']

theorem splitLines_noNl {l : List Char} (h : '\n' ∉ l) (hne : l ≠ []) :
    splitLines l = [l] := by
  induction l with
  | nil => exact absurd rfl hne
  | cons c a' ih =>
    have hc : c ≠ '\n' := fun heq => h (heq ▸ List.mem_cons_self c a')
    have ha' : '\n' ∉ a' := fun hmem => h (List.mem_cons_of_mem c hmem)
    cases a' with
    | nil => simp [splitLines, hc]
    | cons d a'' =>
      rw [splitLines_cons_ne hc, ih ha' (by simp)]

theorem splitLines_piece {l p : List Char} (hp : p ∈ splitLines l) :
    (∃ a, p = a ++ ['\n'] ∧ '\n' ∉ a) ∨ '\n' ∉ p := by
  induction l generalizing p with
  | nil => simp [splitLines] at hp
  | cons ch rest ih =>
    by_cases hch : ch = '\n'
    · simp only [splitLines, if_pos hch, List.mem_cons] at hp
      rcases hp with rfl | hp
      · exact Or.inl ⟨[], rfl, by simp⟩
      · exact ih hp
    · simp only [splitLines, if_neg hch] at hp
      cases hsl : splitLines rest with
      | nil =>
        rw [hsl, List.mem_singleton] at hp
        subst hp
        refine Or.inr ?_
        intro hmem
        rcases List.mem_cons.mp hmem with heq | hmem
        · exact hch heq.symm
        · simp at hmem
      | cons q qs =>
        rw [hsl] at hp
        rcases List.mem_cons.mp hp with rfl | hp
        · rcases ih (hsl ▸ List.mem_cons_self q qs) with ⟨a, ha, hna⟩ | hq
          · refine Or.inl ⟨ch :: a, by simp [ha], ?_⟩
            intro hmem
            rcases List.mem_cons.mp hmem with heq | hmem
            · exact hch heq.symm
            · exact hna hmem
          · refine Or.inr ?_
            intro hmem
            rcases List.mem_cons.mp hmem with heq | hmem
            · exact hch heq.symm
            · exact hq hmem
        · exact ih (hsl ▸ List.mem_cons_of_mem q hp)

theorem splitLines_piece_stripNl {l p : List Char} (hp : p ∈ splitLines l) :
    '\n' ∉ stripNl p := by
  rcases splitLines_piece hp with ⟨a, ha, hna⟩ | hnp
  · rw [ha, stripNl_concat]; exact hna
  · rw [stripNl_noNl hnp]; exact hnp

/-! The split copy loop in closed form, and the chunk-level structure of
split. -/

theorem ceil_mul_ge {b : Nat} (hb : 0 < b) (t : Nat) : t ≤ ((t + b - 1) / b) * b := by
  rcases Nat.eq_zero_or_pos t with rfl | ht
  · simp
  · have h1 : t + b - 1 = (t - 1) + b := by omega
    rw [h1, Nat.add_div_right _ hb]
    have h2 := Nat.div_add_mod (t - 1) b
    have h3 : (t - 1) % b < b := Nat.mod_lt _ hb
    have h4 : ((t - 1) / b + 1) * b = b * ((t - 1) / b) + b := by ring
    rw [h4]
    omega

theorem loopSteps_zero {t n cnt : Nat} (hn : 1 ≤ n) (hle : t ≤ cnt * n) :
    loopSteps t n cnt = 0 := by
  unfold loopSteps
  have hb : 0 < READ_BUFFER * n := Nat.mul_pos (by norm_num [READ_BUFFER]) hn
  have h0 : t - cnt * n = 0 := by omega
  rw [h0]
  exact Nat.div_eq_of_lt (by omega)

theorem loopSteps_succ {t n cnt : Nat} (hn : 1 ≤ n) (hlt : cnt * n < t) :
    loopSteps t n cnt = loopSteps t n (cnt + READ_BUFFER) + 1 := by
  unfold loopSteps
  have hb : 0 < READ_BUFFER * n := Nat.mul_pos (by norm_num [READ_BUFFER]) hn
  set b := READ_BUFFER * n with hbdef
  have hcnt : (cnt + READ_BUFFER) * n = cnt * n + b := by rw [hbdef]; ring
  rw [hcnt]
  set a := t - cnt * n with hadef
  have ha : 1 ≤ a := by omega
  have h1 : t - (cnt * n + b) = a - b := by omega
  rw [h1]
  rcases le_or_lt a b with hab | hba
  · have hD1 : a + b - 1 = (a - 1) + b := by omega
    have hD2 : a - b = 0 := by omega
    rw [hD1, Nat.add_div_right _ hb, hD2]
    have h5 : (a - 1) / b = 0 := Nat.div_eq_of_lt (by omega)
    have h6 : (0 + b - 1) / b = 0 := Nat.div_eq_of_lt (by omega)
    rw [h5, h6]
  · have hD1 : a + b - 1 = (a - 1) + b := by omega
    have hD2 : a - b + b - 1 = a - 1 := by omega
    rw [hD1, Nat.add_div_right _ hb, hD2]

theorem splitCopyLoop_closed (t n : Nat) (hn : 1 ≤ n) :
    ∀ (f cnt : Nat) (rem : List Char), t ≤ (cnt + f * READ_BUFFER) * n →
      splitCopyLoop t n f cnt rem =
        (rem.take (READ_BUFFER * loopSteps t n cnt),
         rem.drop (READ_BUFFER * loopSteps t n cnt)) := by
  intro f
  induction f with
  | zero =>
    intro cnt rem hsuff
    simp only [Nat.zero_mul, Nat.add_zero] at hsuff
    rw [loopSteps_zero hn hsuff]
    simp [splitCopyLoop]
  | succ f ih =>
    intro cnt rem hsuff
    by_cases hlt : cnt * n < t
    · have hsuff' : t ≤ ((cnt + READ_BUFFER) + f * READ_BUFFER) * n := by
        have harr : (cnt + READ_BUFFER) + f * READ_BUFFER = cnt + (f + 1) * READ_BUFFER := by
          ring
        rw [harr]
        exact hsuff
      simp only [splitCopyLoop, if_pos hlt]
      rw [ih (cnt + READ_BUFFER) (rem.drop READ_BUFFER) hsuff', loopSteps_succ hn hlt]
      have htake : READ_BUFFER * (loopSteps t n (cnt + READ_BUFFER) + 1)
          = READ_BUFFER + READ_BUFFER * loopSteps t n (cnt + READ_BUFFER) := by ring
      rw [htake, List.take_add, List.drop_drop]
    · have hle : t ≤ cnt * n := by omega
      rw [loopSteps_zero hn hle]
      simp only [splitCopyLoop, if_neg hlt]
      simp

theorem splitCopyLoop_run (t n : Nat) (hn : 1 ≤ n) (rem : List Char) :
    splitCopyLoop t n t 0 rem
      = (rem.take (READ_BUFFER * loopSteps t n 0),
         rem.drop (READ_BUFFER * loopSteps t n 0)) := by
  refine splitCopyLoop_closed t n hn t 0 rem ?_
  have h1 : (0 + t * READ_BUFFER) * n = t * (READ_BUFFER * n) := by ring
  rw [h1]
  exact Nat.le_mul_of_pos_right t (Nat.mul_pos (by norm_num [READ_BUFFER]) hn)

theorem loopSteps_consumption (t n : Nat) (hn : 1 ≤ n) :
    t ≤ (READ_BUFFER * loopSteps t n 0) * n := by
  have hb : 0 < READ_BUFFER * n := Nat.mul_pos (by norm_num [READ_BUFFER]) hn
  have h1 : (READ_BUFFER * loopSteps t n 0) * n = loopSteps t n 0 * (READ_BUFFER * n) := by
    ring
  rw [h1]
  unfold loopSteps
  have h2 : t - 0 * n = t := by omega
  rw [h2]
  exact ceil_mul_ge hb t

theorem splitChunksAux_length (t n : Nat) (hdr : List Char) :
    ∀ (k : Nat) (rem : List Char), (splitChunksAux t n hdr k rem).length = k := by
  intro k
  induction k with
  | zero => intro rem; rfl
  | succ k ih => intro rem; simp [splitChunksAux, ih]

theorem splitCopyLoop_nil (t n : Nat) :
    ∀ (f cnt : Nat), splitCopyLoop t n f cnt [] = ([], []) := by
  intro f
  induction f with
  | zero => intro cnt; rfl
  | succ f ih =>
    intro cnt
    simp only [splitCopyLoop, List.drop_nil, List.take_nil, ih]
    split <;> simp

theorem splitChunksAux_nil (t n : Nat) (hdr : List Char) :
    ∀ (k : Nat), splitChunksAux t n hdr k [] = List.replicate k hdr := by
  intro k
  induction k with
  | zero => rfl
  | succ k ih =>
    simp only [splitChunksAux, splitCopyLoop_nil, readLine, ih, List.replicate_succ,
      List.append_nil]

theorem mem_splitChunksAux {t n : Nat} {hdr : List Char} :
    ∀ {k : Nat} {rem ch : List Char}, ch ∈ splitChunksAux t n hdr k rem →
      ∃ b, ch = hdr ++ b := by
  intro k
  induction k with
  | zero => intro rem ch h; simp [splitChunksAux] at h
  | succ k ih =>
    intro rem ch h
    simp only [splitChunksAux, List.mem_cons] at h
    rcases h with rfl | h
    · exact ⟨_, by rw [List.append_assoc]⟩
    · exact ih h

theorem splitChunksAux_flatten (t n : Nat) (hn : 1 ≤ n) (hdr : List Char) :
    ∀ (k : Nat) (rem : List Char), rem.length * n ≤ k * t →
      (((splitChunksAux t n hdr k rem).map (fun ch => ch.drop hdr.length)).flatten = rem ∧
        ((splitChunksAux t n hdr k rem).map (fun ch => splitLines (ch.drop hdr.length))).flatten
          = splitLines rem) := by
  intro k
  induction k with
  | zero =>
    intro rem hbound
    have hA : rem.length * n = 0 := by omega
    rcases Nat.mul_eq_zero.mp hA with h | h
    · have : rem = [] := List.length_eq_zero.mp h
      subst this
      simp [splitChunksAux, splitLines]
    · omega
  | succ k ih =>
    intro rem hbound
    set m := READ_BUFFER * loopSteps t n 0 with hmdef
    have hloop := splitCopyLoop_run t n hn rem
    have hmn : t ≤ m * n := loopSteps_consumption t n hn
    simp only [splitChunksAux, hloop]
    have hbody : ∀ x : List Char, (hdr ++ rem.take m ++ x).drop hdr.length = rem.take m ++ x := by
      intro x
      rw [List.append_assoc, List.drop_left]
    by_cases hrem : rem.length ≤ m
    · have htk : rem.take m = rem := List.take_of_length_le hrem
      have hdp : rem.drop m = [] := List.drop_eq_nil_of_le hrem
      rw [htk, hdp]
      obtain ⟨ih1, ih2⟩ := ih [] (by simp)
      simp only [readLine, List.map_cons, List.flatten_cons, List.append_nil, ih1, ih2]
      constructor
      · exact List.drop_left _ _
      · rw [List.drop_left]
        simp [splitLines]
    · push_neg at hrem
      have hq := readLine_append (rem.drop m)
      set q1 := (readLine (rem.drop m)).1 with hq1def
      set q2 := (readLine (rem.drop m)).2 with hq2def
      have hlen : q1.length + q2.length = rem.length - m := by
        have := congrArg List.length hq
        simp only [List.length_append, List.length_drop] at this
        omega
      have hbound' : q2.length * n ≤ k * t := by
        have hmono : q2.length * n ≤ (rem.length - m) * n :=
          Nat.mul_le_mul_right n (by omega)
        have hsub : (rem.length - m) * n = rem.length * n - m * n := Nat.sub_mul _ _ _
        have hsm : (k + 1) * t = k * t + t := by ring
        rw [hsub] at hmono
        rw [hsm] at hbound
        omega
      obtain ⟨ih1, ih2⟩ := ih q2 hbound'
      simp only [List.map_cons, List.flatten_cons, hbody, ih1, ih2]
      constructor
      · rw [List.append_assoc, hq, List.take_append_drop]
      · rcases Classical.em (q2 = []) with hq2nil | hq2ne
        · rw [hq2nil] at hq ⊢
          rw [List.append_nil] at hq
          rw [hq, List.take_append_drop]
          simp [splitLines]
        · rcases readLine_cases (rem.drop m) with ⟨_, h2⟩ | ⟨a, ha, hna⟩
          · exact absurd (hq2def ▸ h2) hq2ne
          · rw [← hq1def] at ha
            have hrem2 : rem = (rem.take m ++ a) ++ '\n' :: q2 := by
              conv_lhs => rw [← List.take_append_drop m rem]
              rw [← hq, ha]
              simp [List.append_assoc]
            rw [ha]
            conv_rhs => rw [hrem2]
            rw [splitLines_append_nl]
            congr 1
            congr 1
            simp [List.append_assoc]

theorem chunk_header {c : List Char} {n : Nat} {ch : List Char}
    (hch : ch ∈ splitPure c n) :
    readLine ch = ((readLine c).1, ch.drop (readLine c).1.length) := by
  rcases readLine_cases c with ⟨hno, hnil⟩ | ⟨a, ha, hna⟩
  · unfold splitPure at hch
    rw [hnil, splitChunksAux_nil] at hch
    obtain ⟨-, rfl⟩ := List.mem_replicate.mp hch
    rw [readLine_noNl hno, List.drop_length]
  · obtain ⟨b, rfl⟩ := mem_splitChunksAux hch
    rw [List.drop_left, ha]
    have : (a ++ ['\n']) ++ b = a ++ '\n' :: b := by simp
    rw [this, readLine_prefix hna]

theorem split_bodies (c : List Char) (n : Nat) (hn : 1 ≤ n) :
    ((splitPure c n).map (fun ch => (readLine ch).2)).flatten = (readLine c).2 ∧
    ((splitPure c n).map (fun ch => splitLines ((readLine ch).2))).flatten
      = splitLines ((readLine c).2) := by
  have hbodylen : (readLine c).2.length * n ≤ n * total_file_size c := by
    have h1 : (readLine c).2.length ≤ total_file_size c := by
      have := congrArg List.length (readLine_append c)
      simp only [List.length_append] at this
      unfold total_file_size
      omega
    calc (readLine c).2.length * n ≤ total_file_size c * n := Nat.mul_le_mul_right n h1
      _ = n * total_file_size c := Nat.mul_comm _ _
  obtain ⟨h1, h2⟩ :=
    splitChunksAux_flatten (total_file_size c) n hn (readLine c).1 n (readLine c).2 hbodylen
  constructor
  · rw [← h1]
    unfold splitPure
    congr 1
    refine List.map_congr_left ?_
    intro ch hch
    rw [chunk_header hch]
  · rw [← h2]
    unfold splitPure
    congr 1
    refine List.map_congr_left ?_
    intro ch hch
    rw [chunk_header hch]

/-- Claim C2 (chunk completeness): split yields exactly n chunks whose record
bodies (the bytes after each chunk's copied header line), concatenated in
split order, are exactly the source body, and whose record-level contents
(the physical lines of each body) concatenate to the record-level contents of
the source body, so no record is split across chunks, duplicated or
dropped. -/
theorem split_chunk_completeness (c : List Char) (n : Nat) (hn : 1 ≤ n) :
    (splitPure c n).length = n ∧
    ((splitPure c n).map (fun ch => (readLine ch).2)).flatten = (readLine c).2 ∧
    ((splitPure c n).map (fun ch => splitLines ((readLine ch).2))).flatten
      = splitLines ((readLine c).2) :=
  ⟨splitChunksAux_length _ _ _ _ _, (split_bodies c n hn).1, (split_bodies c n hn).2⟩

/-- Witness for split_chunk_completeness at a concrete input. -/
theorem split_chunk_completeness_witness :
    1 ≤ 2 ∧
      ((splitPure (['a', '\n', 'x', '\n', 'y', '\n']) 2).length = 2 ∧
        ((splitPure (['a', '\n', 'x', '\n', 'y', '\n']) 2).map
            (fun ch => (readLine ch).2)).flatten
          = (readLine (['a', '\n', 'x', '\n', 'y', '\n'])).2 ∧
        ((splitPure (['a', '\n', 'x', '\n', 'y', '\n']) 2).map
            (fun ch => splitLines ((readLine ch).2))).flatten
          = splitLines ((readLine (['a', '\n', 'x', '\n', 'y', '\n'])).2)) :=
  ⟨by decide, split_chunk_completeness (['a', '\n', 'x', '\n', 'y', '\n']) 2 (by decide)⟩

/-- Counterexample to claim C7 as stated: the per-chunk target split uses is
the whole file size (header included) divided by the chunk count, not the
body size (header excluded) divided by the chunk count.  On the two-line file
h, ab the code target for one chunk is 5 bytes while the spec's formula gives
3 bytes. -/
theorem split_target_cex :
    split_code_target (['h', '\n', 'a', 'b', '\n']) 1
      ≠ split_spec_target (['h', '\n', 'a', 'b', '\n']) 1 := by
  have h1 : split_code_target (['h', '\n', 'a', 'b', '\n']) 1 = (5 : ℚ) := by
    norm_num [split_code_target, total_file_size]
  have h2 : split_spec_target (['h', '\n', 'a', 'b', '\n']) 1 = (3 : ℚ) := by
    have hrl : (readLine (['h', '\n', 'a', 'b', '\n'])).1 = ['h', '\n'] := by decide
    norm_num [split_spec_target, total_file_size, hrl]
  rw [h1, h2]
  norm_num

/-- Claim C7, amended: the target is the WHOLE file size divided by the chunk
count (the header's bytes are not excluded).  The loop guard compares the
byte counter against exactly that rational target; per chunk the copy loop
consumes READ_BUFFER * chunkReads characters (the least multiple of
READ_BUFFER whose counter reaches the target), and each produced chunk is the
header, then those characters, then exactly one more full line. -/
theorem split_target_closed_form (c : List Char) (n : Nat) (hn : 1 ≤ n) :
    (∀ cnt : Nat, ((cnt : ℚ) < split_code_target c n ↔ cnt * n < total_file_size c)) ∧
    (∀ rem : List Char,
      splitCopyLoop (total_file_size c) n (total_file_size c) 0 rem
        = (rem.take (READ_BUFFER * chunkReads c n), rem.drop (READ_BUFFER * chunkReads c n))) ∧
    (∀ (rem : List Char) (k : Nat),
      splitChunksAux (total_file_size c) n (readLine c).1 (k + 1) rem
        = ((readLine c).1 ++ rem.take (READ_BUFFER * chunkReads c n)
            ++ (readLine (rem.drop (READ_BUFFER * chunkReads c n))).1)
          :: splitChunksAux (total_file_size c) n (readLine c).1 k
              ((readLine (rem.drop (READ_BUFFER * chunkReads c n))).2)) := by
  have hreads : chunkReads c n = loopSteps (total_file_size c) n 0 := by
    unfold chunkReads loopSteps
    norm_num
  have hloop : ∀ rem : List Char,
      splitCopyLoop (total_file_size c) n (total_file_size c) 0 rem
        = (rem.take (READ_BUFFER * chunkReads c n), rem.drop (READ_BUFFER * chunkReads c n)) := by
    intro rem
    rw [hreads]
    exact splitCopyLoop_run (total_file_size c) n hn rem
  refine ⟨?_, hloop, ?_⟩
  · intro cnt
    unfold split_code_target
    have hn' : (0 : ℚ) < (n : ℚ) := by exact_mod_cast hn
    rw [lt_div_iff hn']
    constructor
    · intro h
      exact_mod_cast h
    · intro h
      exact_mod_cast h
  · intro rem k
    simp only [splitChunksAux, hloop rem]

/-- Witness for split_target_closed_form at a concrete input. -/
theorem split_target_closed_form_witness :
    1 ≤ 1 ∧
      ((∀ cnt : Nat,
          ((cnt : ℚ) < split_code_target (['h', '\n', 'a', 'b', '\n']) 1 ↔
            cnt * 1 < total_file_size (['h', '\n', 'a', 'b', '\n']))) ∧
        (∀ rem : List Char,
          splitCopyLoop (total_file_size (['h', '\n', 'a', 'b', '\n'])) 1
              (total_file_size (['h', '\n', 'a', 'b', '\n'])) 0 rem
            = (rem.take (READ_BUFFER * chunkReads (['h', '\n', 'a', 'b', '\n']) 1),
                rem.drop (READ_BUFFER * chunkReads (['h', '\n', 'a', 'b', '\n']) 1))) ∧
        (∀ (rem : List Char) (k : Nat),
          splitChunksAux (total_file_size (['h', '\n', 'a', 'b', '\n'])) 1
              (readLine (['h', '\n', 'a', 'b', '\n'])).1 (k + 1) rem
            = ((readLine (['h', '\n', 'a', 'b', '\n'])).1
                ++ rem.take (READ_BUFFER * chunkReads (['h', '\n', 'a', 'b', '\n']) 1)
                ++ (readLine (rem.drop
                      (READ_BUFFER * chunkReads (['h', '\n', 'a', 'b', '\n']) 1))).1)
              :: splitChunksAux (total_file_size (['h', '\n', 'a', 'b', '\n'])) 1
                  (readLine (['h', '\n', 'a', 'b', '\n'])).1 k
                  ((readLine (rem.drop
                      (READ_BUFFER * chunkReads (['h', '\n', 'a', 'b', '\n']) 1))).2))) :=
  ⟨by decide, split_target_closed_form (['h', '\n', 'a', 'b', '\n']) 1 (by decide)⟩

/-- Counterexample to claim C8 as stated: split does NOT fail on an empty
(zero-byte) source file; it succeeds and returns chunkCount empty chunk
files. -/
theorem split_empty_ok_cex : split (some []) 2 = .ok [[], []] := rfl

/-- Claim C8, amended: split fails with IOError exactly when the source path
is unreadable; a readable source whose body is empty (a header-only file, or
the fully empty file) is not an error, and split still emits chunkCount
chunks each consisting of the header line alone. -/
theorem split_error_behavior (c : List Char) (n : Nat) (hn : 1 ≤ n)
    (hbody : (readLine c).2 = []) :
    split none n = .error .ioError ∧
      split (some c) n = .ok (List.replicate n (readLine c).1) := by
  refine ⟨rfl, ?_⟩
  have hn0 : ¬ n = 0 := by omega
  simp only [split, if_neg hn0, Except.ok.injEq]
  unfold splitPure
  rw [hbody]
  exact splitChunksAux_nil _ _ _ _

/-- Witness for split_error_behavior at a concrete header-only input. -/
theorem split_error_behavior_witness :
    (1 ≤ 3 ∧ (readLine (['a', ',', 'b', '\n'])).2 = []) ∧
      (split none 3 = .error .ioError ∧
        split (some (['a', ',', 'b', '\n'])) 3
          = .ok (List.replicate 3 (readLine (['a', ',', 'b', '\n'])).1)) :=
  ⟨⟨by decide, by decide⟩, split_error_behavior (['a', ',', 'b', '\n']) 3 (by decide) (by decide)⟩

/-- Claim C10: split terminates on every input for every chunk count of at
least one, returning exactly num_chunks chunks; the copy loop always exits
through its guard (its counter advances by READ_BUFFER each read, even at end
of file), so once the fuel bound is reached the result no longer depends on
the fuel. -/
theorem split_returns_num_chunks (c : List Char) (n : Nat) (hn : 1 ≤ n) :
    (splitPure c n).length = n ∧
      ∀ (f cnt : Nat) (rem : List Char),
        total_file_size c ≤ (cnt + f * READ_BUFFER) * n →
        splitCopyLoop (total_file_size c) n f cnt rem
          = splitCopyLoop (total_file_size c) n (f + 1) cnt rem := by
  refine ⟨splitChunksAux_length _ _ _ _ _, ?_⟩
  intro f cnt rem hsuff
  have hsuff' : total_file_size c ≤ (cnt + (f + 1) * READ_BUFFER) * n := by
    refine le_trans hsuff (Nat.mul_le_mul_right n ?_)
    have : f * READ_BUFFER ≤ (f + 1) * READ_BUFFER := Nat.mul_le_mul_right _ (by omega)
    omega
  rw [splitCopyLoop_closed (total_file_size c) n hn f cnt rem hsuff,
    splitCopyLoop_closed (total_file_size c) n hn (f + 1) cnt rem hsuff']

/-- Witness for split_returns_num_chunks at a concrete input. -/
theorem split_returns_num_chunks_witness :
    1 ≤ 2 ∧
      ((splitPure (['a', '\n', 'x', '\n']) 2).length = 2 ∧
        ∀ (f cnt : Nat) (rem : List Char),
          total_file_size (['a', '\n', 'x', '\n']) ≤ (cnt + f * READ_BUFFER) * 2 →
          splitCopyLoop (total_file_size (['a', '\n', 'x', '\n'])) 2 f cnt rem
            = splitCopyLoop (total_file_size (['a', '\n', 'x', '\n'])) 2 (f + 1) cnt rem) :=
  ⟨by decide, split_returns_num_chunks (['a', '\n', 'x', '\n']) 2 (by decide)⟩

/-! The coordinator: sorting the queue arrivals by index restores the
original chunk order whatever the completion order was. -/

theorem pairwise_fst_lt_unique :
    ∀ {l₁ l₂ : List (Nat × List Char)}, l₁.Perm l₂ →
      l₁.Pairwise (fun a b => a.1 < b.1) → l₂.Pairwise (fun a b => a.1 < b.1) → l₁ = l₂ := by
  intro l₁
  induction l₁ with
  | nil =>
    intro l₂ hperm _ _
    exact (hperm.symm.eq_nil).symm
  | cons a t ih =>
    intro l₂ hperm hp1 hp2
    cases l₂ with
    | nil =>
      have := hperm.eq_nil
      simp at this
    | cons b t₂ =>
      have hab : a = b := by
        by_contra hne
        have ha2 : a ∈ b :: t₂ := hperm.mem_iff.mp (List.mem_cons_self a t)
        have hb1 : b ∈ a :: t := hperm.mem_iff.mpr (List.mem_cons_self b t₂)
        have hat2 : a ∈ t₂ := by
          rcases List.mem_cons.mp ha2 with h | h
          · exact absurd h hne
          · exact h
        have hbt : b ∈ t := by
          rcases List.mem_cons.mp hb1 with h | h
          · exact absurd h.symm hne
          · exact h
        have h1 : a.1 < b.1 := (List.pairwise_cons.mp hp1).1 b hbt
        have h2 : b.1 < a.1 := (List.pairwise_cons.mp hp2).1 a hat2
        omega
      subst hab
      rw [ih hperm.cons_inv (List.pairwise_cons.mp hp1).2 (List.pairwise_cons.mp hp2).2]

theorem enum_pairwise_fst_lt (L : List (List Char)) :
    L.enum.Pairwise (fun a b => a.1 < b.1) := by
  have h := List.pairwise_lt_range L.length
  rw [← List.enum_map_fst] at h
  exact List.pairwise_map.mp h

theorem sortByIndex_perm_enum {L : List (List Char)} {arrival : List (Nat × List Char)}
    (h : arrival.Perm L.enum) : sortByIndex arrival = L.enum := by
  unfold sortByIndex
  set r := fun a b : Nat × List Char => a.1 ≤ b.1 with hrdef
  haveI : IsTotal (Nat × List Char) r := ⟨fun a b => le_total a.1 b.1⟩
  haveI : IsTrans (Nat × List Char) r := ⟨fun a b c h1 h2 => le_trans h1 h2⟩
  have hsorted : (arrival.insertionSort r).Sorted r := List.sorted_insertionSort r arrival
  have hperm1 : (arrival.insertionSort r).Perm L.enum :=
    (List.perm_insertionSort r arrival).trans h
  have hnodup2 : (L.enum.map Prod.fst).Nodup := by
    rw [List.enum_map_fst]
    exact List.nodup_range _
  have hnodup1 : ((arrival.insertionSort r).map Prod.fst).Nodup :=
    ((hperm1.map Prod.fst).nodup_iff).mpr hnodup2
  have hne1 : (arrival.insertionSort r).Pairwise (fun a b => a.1 ≠ b.1) :=
    List.pairwise_map.mp hnodup1
  have hlt1 : (arrival.insertionSort r).Pairwise (fun a b => a.1 < b.1) :=
    (hsorted.and hne1).imp (fun hab => lt_of_le_of_ne hab.1 hab.2)
  exact pairwise_fst_lt_unique hperm1 hlt1 (enum_pairwise_fst_lt L)

theorem collectQueue_map_ok {α : Type} (g : α → List Char) (l : List α) :
    collectQueue (l.map (fun x => Except.ok (g x))) = (l.map g).enum := by
  unfold collectQueue
  show (List.enumFrom 0 (l.map (fun x => Except.ok (g x)))).filterMap _
      = List.enumFrom 0 (l.map g)
  generalize 0 = i
  induction l generalizing i with
  | nil => rfl
  | cons x xs ih => simp [List.enumFrom, ih]

/-! Record-level lemmas: field names are clean, lookups over zipped records,
and the round trip between rows and their serialized lines. -/

theorem fieldnamesOf_clean (c : List Char) :
    ∀ fn ∈ fieldnamesOf c, ',' ∉ fn ∧ '\n' ∉ fn := by
  intro fn hfn
  obtain ⟨hcm, hsub⟩ := splitComma_mem hfn
  refine ⟨hcm, fun hnl => ?_⟩
  have hmem : '\n' ∈ stripNl (readLine c).1 := hsub _ hnl
  rcases readLine_cases c with ⟨hno, -⟩ | ⟨a, ha, hna⟩
  · rw [stripNl_noNl hno] at hmem
    exact hno hmem
  · rw [ha, stripNl_concat] at hmem
    exact hna hmem

theorem fieldnamesOf_ne_nil (c : List Char) : fieldnamesOf c ≠ [] :=
  splitComma_ne_nil _

theorem lookupField_append_left {l₁ l₂ : Record} {k : List Char}
    (h : (lookupField l₁ k).isSome) :
    lookupField (l₁ ++ l₂) k = lookupField l₁ k := by
  induction l₁ with
  | nil => simp [lookupField] at h
  | cons kv rest ih =>
    by_cases hk : kv.1 = k
    · simp [lookupField, hk]
    · simp only [lookupField, if_neg hk] at h ⊢
      exact ih h

theorem lookupField_append_right {l₁ l₂ : Record} {k : List Char}
    (h : ∀ kv ∈ l₁, kv.1 ≠ k) :
    lookupField (l₁ ++ l₂) k = lookupField l₂ k := by
  induction l₁ with
  | nil => rfl
  | cons kv rest ih =>
    have hk : kv.1 ≠ k := h kv (List.mem_cons_self kv rest)
    simp only [List.cons_append, lookupField, if_neg hk]
    exact ih (fun kv' h' => h kv' (List.mem_cons_of_mem kv h'))

theorem lookup_zip_ext (fns vals : List (List Char)) (T : Record)
    (hnd : fns.Nodup) (hlen : vals.length = fns.length) :
    fns.map (fun k => (lookupField (List.zip fns vals ++ T) k).getD []) = vals := by
  induction fns generalizing vals T with
  | nil =>
    have : vals = [] := List.length_eq_zero.mp (by simpa using hlen)
    subst this
    rfl
  | cons fn fns' ih =>
    cases vals with
    | nil => simp at hlen
    | cons v vs =>
      have hnotin : fn ∉ fns' := (List.nodup_cons.mp hnd).1
      have hnd' : fns'.Nodup := (List.nodup_cons.mp hnd).2
      have hlen' : vs.length = fns'.length := by simpa using hlen
      simp only [List.zip_cons_cons, List.cons_append, List.map_cons]
      have hhead : (lookupField ((fn, v) :: (List.zip fns' vs ++ T)) fn).getD [] = v := by
        simp [lookupField]
      rw [hhead]
      have hcongr : fns'.map
            (fun k => (lookupField ((fn, v) :: (List.zip fns' vs ++ T)) k).getD [])
            = fns'.map (fun k => (lookupField (List.zip fns' vs ++ T) k).getD []) := by
          refine List.map_congr_left ?_
          intro k hk
          have hne : fn ≠ k := fun heq => hnotin (heq ▸ hk)
          simp [lookupField, hne]
      rw [hcongr, ih vs T hnd' hlen']

theorem joinComma_ne_nil_two (a b : List Char) (t : List (List Char)) :
    joinComma (a :: b :: t) ≠ [] := by
  cases a with
  | nil => simp [joinComma]
  | cons x xs => simp [joinComma]

theorem csvRows_joined (rows : List (List (List Char)))
    (hrows : ∀ vals ∈ rows,
      vals ≠ [] ∧ joinComma vals ≠ [] ∧ ∀ v ∈ vals, ',' ∉ v ∧ '\n' ∉ v) :
    csvRows ((rows.map (fun vals => joinComma vals ++ ['\n'])).flatten) = rows := by
  induction rows with
  | nil => rfl
  | cons vals rest ih =>
    obtain ⟨hvne, hjne, hcl⟩ := hrows vals (List.mem_cons_self _ _)
    have hrest := fun v hv => hrows v (List.mem_cons_of_mem _ hv)
    have hnj : '\n' ∉ joinComma vals := by
      intro hmem
      rcases mem_joinComma hmem with h | ⟨f, hf, hch⟩
      · exact absurd h (by decide)
      · exact (hcl f hf).2 hch
    simp only [List.map_cons, List.flatten_cons]
    have hshape : (joinComma vals ++ ['\n'])
          ++ ((rest.map (fun vals => joinComma vals ++ ['\n'])).flatten)
        = joinComma vals ++ '\n' :: ((rest.map (fun vals => joinComma vals ++ ['\n'])).flatten) := by
      simp
    rw [hshape]
    unfold csvRows
    rw [splitLines_append_nl, splitLines_concat_noNl hnj]
    rw [List.filterMap_append]
    have hline : stripNl (joinComma vals ++ ['\n']) = joinComma vals := stripNl_concat _
    have hfm : List.filterMap
          (fun l => if stripNl l = [] then none else some (splitComma (stripNl l)))
          [joinComma vals ++ ['\n']]
        = [vals] := by
      simp only [List.filterMap_cons, List.filterMap_nil, hline, if_neg hjne]
      rw [splitComma_joinComma hvne (fun f hf => (hcl f hf).1)]
    rw [hfm]
    unfold csvRows at ih
    rw [ih hrest]
    rfl

theorem readLine_writeHeaderLine {keys : List (List Char)} (hcl : ∀ k ∈ keys, '\n' ∉ k)
    (X : List Char) : readLine (writeHeaderLine keys ++ X) = (writeHeaderLine keys, X) := by
  have hnj : '\n' ∉ joinComma keys := by
    intro hmem
    rcases mem_joinComma hmem with h | ⟨f, hf, hch⟩
    · exact absurd h (by decide)
    · exact hcl f hf hch
  unfold writeHeaderLine
  have hshape : (joinComma keys ++ ['\n']) ++ X = joinComma keys ++ '\n' :: X := by simp
  rw [hshape, readLine_prefix hnj]

theorem parseLine_writeHeaderLine {keys : List (List Char)} (hne : keys ≠ [])
    (hcl : ∀ k ∈ keys, ',' ∉ k) : parseLine (writeHeaderLine keys) = keys := by
  unfold parseLine writeHeaderLine
  rw [stripNl_concat]
  exact splitComma_joinComma hne hcl

theorem flatten_map_flatten {α β γ : Type} (L : List α) (h : α → List β) (g : β → List γ) :
    (L.map (fun x => ((h x).map g).flatten)).flatten
      = (((L.map h).flatten).map g).flatten := by
  induction L with
  | nil => rfl
  | cons x xs ih =>
    simp only [List.map_cons, List.flatten_cons, List.map_append, List.flatten_append, ih]

theorem csvRows_chunks (c : List Char) (n : Nat) (hn : 1 ≤ n) :
    ((splitPure c n).map (fun ch => csvRows (ch.drop (readLine c).1.length))).flatten
      = bodyRows c := by
  have hcongr : (splitPure c n).map (fun ch => csvRows (ch.drop (readLine c).1.length))
      = (splitPure c n).map (fun ch => csvRows ((readLine ch).2)) := by
    refine List.map_congr_left ?_
    intro ch hch
    rw [chunk_header hch]
  rw [hcongr]
  unfold bodyRows csvRows
  rw [← (split_bodies c n hn).2, List.filterMap_flatten, List.map_map]
  rfl

theorem processRows_ok (f : Record → Record) (fns sorted : List (List Char)) :
    ∀ rows : List (List (List Char)),
      (∀ vals ∈ rows, ∀ kv ∈ f (mkRecord fns vals), kv.1 ∈ sorted) →
      processRows (pureTf f) fns sorted rows
        = .ok ((rows.map (fun vals => serializeRow sorted (f (mkRecord fns vals)))).flatten) := by
  intro rows
  induction rows with
  | nil => intro _; rfl
  | cons vals rest ih =>
    intro h
    have hall : ((f (mkRecord fns vals)).all (fun kv => kv.1 ∈ sorted)) = true := by
      rw [List.all_eq_true]
      intro kv hkv
      exact decide_eq_true (h vals (List.mem_cons_self _ _) kv hkv)
    simp only [processRows, pureTf, hall, if_true]
    rw [ih (fun v hv => h v (List.mem_cons_of_mem _ hv))]
    rfl

theorem process_one_file_ok (f : Record → Record) (chunk : List Char)
    (hmem : ∀ vals ∈ csvRows (readLine chunk).2,
      ∀ kv ∈ f (mkRecord (parseLine (readLine chunk).1) vals),
        kv.1 ∈ derivedOrder (parseLine (readLine chunk).1) f) :
    process_one_file (pureTf f) chunk
      = .ok (writeHeaderLine (derivedOrder (parseLine (readLine chunk).1) f)
          ++ ((csvRows (readLine chunk).2).map (fun vals =>
                serializeRow (derivedOrder (parseLine (readLine chunk).1) f)
                  (f (mkRecord (parseLine (readLine chunk).1) vals)))).flatten) := by
  simp only [derivedOrder] at hmem ⊢
  simp only [process_one_file, pureTf]
  rw [processRows_ok f _ _ _ hmem]

theorem workerOutputs_ok (cpu : Nat) (c : List Char) (f : Record → Record)
    (hmem : ∀ vals ∈ bodyRows c, ∀ kv ∈ f (mkRecord (fieldnamesOf c) vals),
      kv.1 ∈ derivedOrder (fieldnamesOf c) f) (hcpu : 1 ≤ cpu) :
    workerOutputs cpu c (pureTf f)
      = (splitPure c cpu).map (fun ch => Except.ok (chunkOut c f ch)) := by
  unfold workerOutputs
  refine List.map_congr_left ?_
  intro ch hch
  have hhdr := chunk_header hch
  have hfst : (readLine ch).1 = (readLine c).1 := by rw [hhdr]
  have hsnd : (readLine ch).2 = ch.drop (readLine c).1.length := by rw [hhdr]
  have hfns : parseLine (readLine ch).1 = fieldnamesOf c := by
    rw [hfst]; rfl
  have hsub : ∀ vals ∈ csvRows (readLine ch).2, vals ∈ bodyRows c := by
    intro vals hv
    rw [← csvRows_chunks c cpu hcpu, List.mem_flatten]
    refine ⟨csvRows (ch.drop (readLine c).1.length), List.mem_map_of_mem _ hch, ?_⟩
    rw [← hsnd]
    exact hv
  rw [process_one_file_ok f ch (by
    intro vals hv kv hkv
    rw [hfns] at hkv ⊢
    exact hmem vals (hsub vals hv) kv hkv)]
  unfold chunkOut
  rw [hfns, hsnd]

theorem readLine_chunkOut (c : List Char) (f : Record → Record)
    (hclean : ∀ k ∈ derivedOrder (fieldnamesOf c) f, '\n' ∉ k) (ch : List Char) :
    readLine (chunkOut c f ch)
      = (writeHeaderLine (derivedOrder (fieldnamesOf c) f),
          ((csvRows (ch.drop (readLine c).1.length)).map (fun vals =>
            serializeRow (derivedOrder (fieldnamesOf c) f)
              (f (mkRecord (fieldnamesOf c) vals)))).flatten) := by
  unfold chunkOut
  exact readLine_writeHeaderLine hclean _

theorem pipeline_run (cpu maxp : Nat) (hcpu : 1 ≤ cpu) (c : List Char) (f : Record → Record)
    (hclean : ∀ k ∈ derivedOrder (fieldnamesOf c) f, '\n' ∉ k)
    (hmem : ∀ vals ∈ bodyRows c, ∀ kv ∈ f (mkRecord (fieldnamesOf c) vals),
      kv.1 ∈ derivedOrder (fieldnamesOf c) f)
    (arrival : List (Nat × List Char))
    (harr : arrival.Perm (collectQueue (workerOutputs cpu c (pureTf f)))) :
    process_csv_arrivals cpu c (pureTf f) maxp arrival
      = .finished (writeHeaderLine (derivedOrder (fieldnamesOf c) f)
          ++ ((bodyRows c).map (fun vals =>
                serializeRow (derivedOrder (fieldnamesOf c) f)
                  (f (mkRecord (fieldnamesOf c) vals)))).flatten) := by
  have hW := workerOutputs_ok cpu c f hmem hcpu
  have hany : ((workerOutputs cpu c (pureTf f)).any isWorkerError) = false := by
    rw [hW]
    rw [List.any_eq_false]
    intro x hx
    obtain ⟨ch, -, rfl⟩ := List.mem_map.mp hx
    simp [isWorkerError]
  unfold process_csv_arrivals
  rw [hany]
  simp only [Bool.false_eq_true, if_false]
  rw [hW, collectQueue_map_ok (chunkOut c f) (splitPure c cpu)] at harr
  rw [sortByIndex_perm_enum harr, List.enum_map_snd]
  have hchunks_ne : splitPure c cpu ≠ [] := by
    have hlen := splitChunksAux_length (total_file_size c) cpu (readLine c).1 cpu (readLine c).2
    intro hnil
    unfold splitPure at hnil
    rw [hnil] at hlen
    simp at hlen
    omega
  obtain ⟨ch0, chs, hcons⟩ := List.exists_cons_of_ne_nil hchunks_ne
  rw [hcons, List.map_cons, merge]
  rw [show (chunkOut c f ch0 :: List.map (chunkOut c f) chs)
      = List.map (chunkOut c f) (ch0 :: chs) from rfl]
  have hbodies :
      (List.map (fun s => (readLine s).2) (List.map (chunkOut c f) (ch0 :: chs)))
        = List.map (fun ch =>
            ((csvRows (ch.drop (readLine c).1.length)).map (fun vals =>
              serializeRow (derivedOrder (fieldnamesOf c) f)
                (f (mkRecord (fieldnamesOf c) vals)))).flatten) (ch0 :: chs) := by
    rw [List.map_map]
    refine List.map_congr_left ?_
    intro ch _
    show (readLine (chunkOut c f ch)).2 = _
    rw [readLine_chunkOut c f hclean ch]
  rw [hbodies, ← hcons]
  rw [readLine_chunkOut c f hclean ch0]
  rw [flatten_map_flatten (splitPure c cpu)
    (fun ch => csvRows (ch.drop (readLine c).1.length))
    (fun vals => serializeRow (derivedOrder (fieldnamesOf c) f)
      (f (mkRecord (fieldnamesOf c) vals)))]
  rw [csvRows_chunks c cpu hcpu]

theorem bodyRows_spec (c : List Char) :
    ∀ vals ∈ bodyRows c,
      vals ≠ [] ∧ joinComma vals ≠ [] ∧ ∀ v ∈ vals, ',' ∉ v ∧ '\n' ∉ v := by
  intro vals hv
  unfold bodyRows csvRows at hv
  obtain ⟨line, hline, hsome⟩ := List.mem_filterMap.mp hv
  by_cases hs : stripNl line = []
  · rw [if_pos hs] at hsome
    simp at hsome
  · rw [if_neg hs] at hsome
    have hvals : vals = splitComma (stripNl line) := by
      exact (Option.some.injEq _ _ ▸ hsome).symm
    have hnl : '\n' ∉ stripNl line := splitLines_piece_stripNl hline
    subst hvals
    refine ⟨splitComma_ne_nil _, ?_, ?_⟩
    · rw [joinComma_splitComma]
      exact hs
    · intro v hvmem
      obtain ⟨hc, hsub⟩ := splitComma_mem hvmem
      exact ⟨hc, fun hn => hnl (hsub _ hn)⟩

theorem probeRecord_keys (fns : List (List Char)) :
    (probeRecord fns).map Prod.fst = fns := by
  unfold probeRecord
  induction fns with
  | nil => rfl
  | cons fn rest ih =>
    simp only [List.map_cons]
    rw [ih]

theorem derivedOrder_identity (fns : List (List Char)) :
    derivedOrder fns identity = fns := by
  unfold derivedOrder identity
  dsimp only
  rw [probeRecord_keys]
  have h1 : fns.filter (fun x => x ∈ fns) = fns :=
    List.filter_eq_self.mpr (fun a ha => by simpa using ha)
  have h2 : fns.filter (fun x => ¬ x ∈ fns) = [] :=
    List.filter_eq_nil.mpr (fun a ha => by simpa using ha)
  rw [h1, h2, List.append_nil]

theorem derivedOrder_add_a_column (fns : List (List Char)) (hnc : newColumnField ∉ fns) :
    derivedOrder fns add_a_column = fns ++ [newColumnField] := by
  unfold derivedOrder add_a_column dictSet
  dsimp only
  have hany : ((probeRecord fns).any (fun kv => kv.1 = newColumnField)) = false := by
    rw [List.any_eq_false]
    intro kv hkv
    obtain ⟨fn, hfn, rfl⟩ := List.mem_map.mp hkv
    simp only [decide_eq_true_eq]
    exact fun heq => hnc (heq ▸ hfn)
  simp only [hany, Bool.false_eq_true, if_false]
  rw [List.map_append, probeRecord_keys]
  simp only [List.map_cons, List.map_nil]
  have h1 : fns.filter (fun x => x ∈ fns ++ [newColumnField]) = fns :=
    List.filter_eq_self.mpr (fun a ha => by simp [List.mem_append_left _ ha])
  have h2 : (fns ++ [newColumnField]).filter (fun x => ¬ x ∈ fns) = [newColumnField] := by
    rw [List.filter_append]
    have h2a : fns.filter (fun x => ¬ x ∈ fns) = [] :=
      List.filter_eq_nil.mpr (fun a ha => by simpa using ha)
    have h2b : ([newColumnField] : List (List Char)).filter (fun x => ¬ x ∈ fns)
        = [newColumnField] :=
      List.filter_eq_self.mpr (fun a ha => by
        simp only [List.mem_singleton] at ha
        subst ha
        simpa using hnc)
    rw [h2a, h2b, List.nil_append]
  rw [h1, h2]

theorem add_a_column_eq (fns vals : List (List Char)) (hnc : newColumnField ∉ fns) :
    add_a_column (mkRecord fns vals)
      = List.zip fns vals ++ [(newColumnField, defaultValueChars)] := by
  unfold add_a_column dictSet mkRecord
  have hany : ((List.zip fns vals).any (fun kv => kv.1 = newColumnField)) = false := by
    rw [List.any_eq_false]
    intro kv hkv
    obtain ⟨k, v⟩ := kv
    have h1 := (List.of_mem_zip hkv).1
    simp only [decide_eq_true_eq]
    exact fun heq => hnc (heq ▸ h1)
  simp only [hany, Bool.false_eq_true, if_false]

theorem serializeRow_add (fns vals : List (List Char)) (hnd : fns.Nodup)
    (hlen : vals.length = fns.length) (hnc : newColumnField ∉ fns) :
    serializeRow (fns ++ [newColumnField]) (add_a_column (mkRecord fns vals))
      = joinComma (vals ++ [defaultValueChars]) ++ ['\n'] := by
  rw [add_a_column_eq fns vals hnc]
  unfold serializeRow
  congr 1
  congr 1
  rw [List.map_append]
  congr 1
  · exact lookup_zip_ext fns vals [(newColumnField, defaultValueChars)] hnd hlen
  · simp only [List.map_cons, List.map_nil]
    rw [lookupField_append_right (fun kv hkv => by
      obtain ⟨k, v⟩ := kv
      have h1 := (List.of_mem_zip hkv).1
      exact fun heq => hnc (heq ▸ h1))]
    simp [lookupField]

theorem serializeRow_identity (fns vals : List (List Char)) (hnd : fns.Nodup)
    (hlen : vals.length = fns.length) :
    serializeRow fns (identity (mkRecord fns vals)) = joinComma vals ++ ['\n'] := by
  unfold serializeRow identity mkRecord
  congr 1
  congr 1
  have h := lookup_zip_ext fns vals [] hnd hlen
  rwa [List.append_nil] at h

theorem joinComma_append_ne_nil (vals : List (List Char)) (hne : vals ≠ []) (x : List Char) :
    joinComma (vals ++ [x]) ≠ [] := by
  cases vals with
  | nil => exact absurd rfl hne
  | cons a t =>
    have hcons : t ++ [x] ≠ [] := by simp
    obtain ⟨b, t', hbt⟩ := List.exists_cons_of_ne_nil hcons
    rw [List.cons_append, hbt]
    exact joinComma_ne_nil_two a b t'

/-- Counterexample to claim C1 as stated: with a transformer whose output
fields depend on the record's values, the row processing raises ValueError
(the transformed row has a field outside the probe-derived order), the worker
dies, and the run deadlocks, so no output with the claimed contents exists. -/
theorem process_csv_order_cex :
    process_csv 1 schemaCexInput (pureTf schemaCexTf) 6 = .deadlock := by rfl

/-- Claim C1, amended: for a well-formed input, a non-raising transformer
that fits its probe-derived schema on every record of the file, any chunk
count, any max_procs and ANY completion (queue arrival) order of the workers,
the run finishes and its output is the derived header line followed by the
record-by-record transformation of the source body, serialized top-to-bottom
in the input's record order. -/
theorem process_csv_order_preserving (cpu maxp : Nat) (hcpu : 1 ≤ cpu) (c : List Char)
    (hwf : WellFormed c) (f : Record → Record) (hok : TransformerOk c f)
    (arrival : List (Nat × List Char))
    (harr : arrival.Perm (collectQueue (workerOutputs cpu c (pureTf f)))) :
    process_csv_arrivals cpu c (pureTf f) maxp arrival
      = .finished (writeHeaderLine (derivedOrder (fieldnamesOf c) f)
          ++ ((bodyRows c).map (fun vals =>
                serializeRow (derivedOrder (fieldnamesOf c) f)
                  (f (mkRecord (fieldnamesOf c) vals)))).flatten) :=
  pipeline_run cpu maxp hcpu c f
    (fun k hk => (hok.1 k hk).2.1)
    (fun vals hv kv hkv => (hok.2 vals hv kv hkv).1)
    arrival harr

/-- Witness for process_csv_order_preserving: a concrete two-chunk run whose
queue arrivals come in reversed completion order. -/
theorem process_csv_order_preserving_witness :
    (1 ≤ 2 ∧ WellFormed (['a', ',', 'b', '\n', 'x', ',', 'y', '\n', 'u', ',', 'v', '\n'])
        ∧ TransformerOk (['a', ',', 'b', '\n', 'x', ',', 'y', '\n', 'u', ',', 'v', '\n'])
            add_a_column) ∧
      process_csv_arrivals 2 (['a', ',', 'b', '\n', 'x', ',', 'y', '\n', 'u', ',', 'v', '\n'])
          (pureTf add_a_column) 6
          ((collectQueue (workerOutputs 2
              (['a', ',', 'b', '\n', 'x', ',', 'y', '\n', 'u', ',', 'v', '\n'])
              (pureTf add_a_column))).reverse)
        = .finished (writeHeaderLine (derivedOrder
              (fieldnamesOf (['a', ',', 'b', '\n', 'x', ',', 'y', '\n', 'u', ',', 'v', '\n']))
              add_a_column)
            ++ ((bodyRows (['a', ',', 'b', '\n', 'x', ',', 'y', '\n', 'u', ',', 'v', '\n'])).map
                  (fun vals => serializeRow (derivedOrder
                      (fieldnamesOf
                        (['a', ',', 'b', '\n', 'x', ',', 'y', '\n', 'u', ',', 'v', '\n']))
                      add_a_column)
                    (add_a_column (mkRecord
                      (fieldnamesOf
                        (['a', ',', 'b', '\n', 'x', ',', 'y', '\n', 'u', ',', 'v', '\n']))
                      vals)))).flatten) :=
  ⟨⟨by decide, by decide, by decide⟩,
    process_csv_order_preserving 2 6 (by decide) _ (by decide) add_a_column (by decide) _
      (List.reverse_perm _)⟩

/-- Claim C3: a transformer that raises on one record makes the worker die;
the coordinator then blocks forever on the results queue (no result was ever
enqueued by the dead worker), so merge is never reached and no output file is
written.  The spec expects a surfaced error instead; the silent deadlock is
the divergence. -/
theorem worker_failure_no_output :
    process_csv 1 failingInput transform_raises 6 = .deadlock ∧
      (workerOutputs 1 failingInput transform_raises).any isWorkerError = true := by
  exact ⟨rfl, rfl⟩

/-- Counterexample to claim C4 as stated: when the input header already
contains new_column, the output header is NOT the input header with
new_column appended; it is the unchanged input header (and the existing
column's values are overwritten). -/
theorem add_a_column_schema_cex :
    process_csv 1 dupColumnInput (pureTf add_a_column) 6 = .finished dupColumnOut ∧
      fieldnamesOf dupColumnOut ≠ fieldnamesOf dupColumnInput ++ [newColumnField] := by
  exact ⟨rfl, by decide⟩

/-- Claim C4, amended: for a well-formed input whose header does not already
contain new_column, the pipeline with the add_a_column transformer finishes
with an output whose header is the input header with new_column appended,
and in which every output row's value for new_column is default_value. -/
theorem add_a_column_schema (cpu maxp : Nat) (hcpu : 1 ≤ cpu) (c : List Char)
    (hwf : WellFormed c) (hnc : newColumnField ∉ fieldnamesOf c) :
    ∃ out, process_csv cpu c (pureTf add_a_column) maxp = .finished out ∧
      fieldnamesOf out = fieldnamesOf c ++ [newColumnField] ∧
      ∀ vals ∈ bodyRows out,
        lookupField (mkRecord (fieldnamesOf c ++ [newColumnField]) vals) newColumnField
          = some defaultValueChars := by
  obtain ⟨hnd, hhdrne, hcr, hq, harity⟩ := hwf
  have hkeysclean : ∀ k ∈ fieldnamesOf c ++ [newColumnField], ',' ∉ k ∧ '\n' ∉ k := by
    intro k hk
    rcases List.mem_append.mp hk with hk | hk
    · exact fieldnamesOf_clean c k hk
    · simp only [List.mem_singleton] at hk
      subst hk
      exact ⟨by decide, by decide⟩
  have hclean : ∀ k ∈ derivedOrder (fieldnamesOf c) add_a_column, '\n' ∉ k := by
    rw [derivedOrder_add_a_column _ hnc]
    exact fun k hk => (hkeysclean k hk).2
  have hmem : ∀ vals ∈ bodyRows c, ∀ kv ∈ add_a_column (mkRecord (fieldnamesOf c) vals),
      kv.1 ∈ derivedOrder (fieldnamesOf c) add_a_column := by
    rw [derivedOrder_add_a_column _ hnc]
    intro vals hv kv hkv
    rw [add_a_column_eq _ _ hnc] at hkv
    rcases List.mem_append.mp hkv with hkv | hkv
    · obtain ⟨k, v⟩ := kv
      exact List.mem_append_left _ (List.of_mem_zip hkv).1
    · simp only [List.mem_singleton] at hkv
      subst hkv
      exact List.mem_append_right _ (List.mem_singleton.mpr rfl)
  have hrun := pipeline_run cpu maxp hcpu c add_a_column hclean hmem
    (collectQueue (workerOutputs cpu c (pureTf add_a_column))) (List.Perm.refl _)
  rw [derivedOrder_add_a_column _ hnc] at hrun
  have hser : (bodyRows c).map (fun vals =>
        serializeRow (fieldnamesOf c ++ [newColumnField])
          (add_a_column (mkRecord (fieldnamesOf c) vals)))
      = ((bodyRows c).map (fun vals => vals ++ [defaultValueChars])).map
          (fun vals => joinComma vals ++ ['\n']) := by
    rw [List.map_map]
    refine List.map_congr_left ?_
    intro vals hv
    exact serializeRow_add _ vals hnd (harity vals hv) hnc
  rw [hser] at hrun
  have hbody : bodyRows (writeHeaderLine (fieldnamesOf c ++ [newColumnField])
      ++ (((bodyRows c).map (fun vals => vals ++ [defaultValueChars])).map
          (fun vals => joinComma vals ++ ['\n'])).flatten)
      = (bodyRows c).map (fun vals => vals ++ [defaultValueChars]) := by
    show csvRows (readLine _).2 = _
    rw [readLine_writeHeaderLine (fun k hk => (hkeysclean k hk).2)]
    refine csvRows_joined _ ?_
    intro vals' hv'
    obtain ⟨vals0, hv0, rfl⟩ := List.mem_map.mp hv'
    obtain ⟨hne0, hjoin0, hcl0⟩ := bodyRows_spec c vals0 hv0
    refine ⟨by simp, joinComma_append_ne_nil vals0 hne0 _, ?_⟩
    intro v hvmem
    rcases List.mem_append.mp hvmem with h | h
    · exact hcl0 v h
    · simp only [List.mem_singleton] at h
      subst h
      exact ⟨by decide, by decide⟩
  refine ⟨_, hrun, ?_, ?_⟩
  · show parseLine (readLine _).1 = _
    rw [readLine_writeHeaderLine (fun k hk => (hkeysclean k hk).2)]
    exact parseLine_writeHeaderLine (by simp) (fun k hk => (hkeysclean k hk).1)
  · intro vals hv
    rw [hbody] at hv
    obtain ⟨vals0, hv0, rfl⟩ := List.mem_map.mp hv
    unfold mkRecord
    rw [List.zip_append (harity vals0 hv0).symm]
    rw [lookupField_append_right (fun kv hkv => by
      obtain ⟨k, v⟩ := kv
      have h1 := (List.of_mem_zip hkv).1
      exact fun heq => hnc (heq ▸ h1))]
    simp [lookupField]

/-- Witness for add_a_column_schema at a concrete input. -/
theorem add_a_column_schema_witness :
    (1 ≤ 1 ∧ WellFormed (['a', ',', 'b', '\n', 'x', ',', 'y', '\n'])
        ∧ newColumnField ∉ fieldnamesOf (['a', ',', 'b', '\n', 'x', ',', 'y', '\n'])) ∧
      ∃ out, process_csv 1 (['a', ',', 'b', '\n', 'x', ',', 'y', '\n'])
            (pureTf add_a_column) 6 = .finished out ∧
        fieldnamesOf out
          = fieldnamesOf (['a', ',', 'b', '\n', 'x', ',', 'y', '\n']) ++ [newColumnField] ∧
        ∀ vals ∈ bodyRows out,
          lookupField (mkRecord
              (fieldnamesOf (['a', ',', 'b', '\n', 'x', ',', 'y', '\n']) ++ [newColumnField])
              vals) newColumnField
            = some defaultValueChars :=
  ⟨⟨by decide, by decide, by decide⟩,
    add_a_column_schema 1 6 (by decide) _ (by decide) (by decide)⟩

/-- Claim C5: on any chunk, for any non-raising transformer fitting its
probe-derived schema (with clean, non-empty derived order), the chunk
processor succeeds; its output is one header line carrying the derived field
order - all surviving original fields in input order, then the newly
introduced fields in probe insertion order, exactly the spec's formula - and
then each record serialized by looking up each derived field, with missing
fields written as the empty string. -/
theorem chunk_processor_output_order (ch : List Char) (f : Record → Record)
    (hcl : ∀ k ∈ derivedOrder (parseLine (readLine ch).1) f, ',' ∉ k ∧ '\n' ∉ k)
    (hne : derivedOrder (parseLine (readLine ch).1) f ≠ [])
    (hmem : ∀ vals ∈ csvRows (readLine ch).2,
      ∀ kv ∈ f (mkRecord (parseLine (readLine ch).1) vals),
        kv.1 ∈ derivedOrder (parseLine (readLine ch).1) f) :
    process_one_file (pureTf f) ch
      = .ok (writeHeaderLine (derivedOrder (parseLine (readLine ch).1) f)
          ++ ((csvRows (readLine ch).2).map (fun vals =>
              joinComma ((derivedOrder (parseLine (readLine ch).1) f).map (fun k =>
                (lookupField (f (mkRecord (parseLine (readLine ch).1) vals)) k).getD []))
              ++ ['\n'])).flatten)
      ∧ parseLine (writeHeaderLine (derivedOrder (parseLine (readLine ch).1) f))
          = specOutputOrder (parseLine (readLine ch).1)
              ((f (probeRecord (parseLine (readLine ch).1))).map Prod.fst) := by
  constructor
  · rw [process_one_file_ok f ch hmem]
    rfl
  · rw [parseLine_writeHeaderLine hne (fun k hk => (hcl k hk).1)]
    rfl

/-- Witness for chunk_processor_output_order at a concrete chunk. -/
theorem chunk_processor_output_order_witness :
    ((∀ k ∈ derivedOrder (parseLine (readLine (['a', ',', 'b', '\n', 'x', ',', 'y', '\n'])).1)
          add_a_column, ',' ∉ k ∧ '\n' ∉ k)
      ∧ derivedOrder (parseLine (readLine (['a', ',', 'b', '\n', 'x', ',', 'y', '\n'])).1)
          add_a_column ≠ []
      ∧ (∀ vals ∈ csvRows (readLine (['a', ',', 'b', '\n', 'x', ',', 'y', '\n'])).2,
          ∀ kv ∈ add_a_column (mkRecord
              (parseLine (readLine (['a', ',', 'b', '\n', 'x', ',', 'y', '\n'])).1) vals),
            kv.1 ∈ derivedOrder
              (parseLine (readLine (['a', ',', 'b', '\n', 'x', ',', 'y', '\n'])).1)
              add_a_column)) ∧
      (process_one_file (pureTf add_a_column) (['a', ',', 'b', '\n', 'x', ',', 'y', '\n'])
        = .ok (writeHeaderLine (derivedOrder
              (parseLine (readLine (['a', ',', 'b', '\n', 'x', ',', 'y', '\n'])).1)
              add_a_column)
            ++ ((csvRows (readLine (['a', ',', 'b', '\n', 'x', ',', 'y', '\n'])).2).map
                  (fun vals => joinComma ((derivedOrder
                      (parseLine (readLine (['a', ',', 'b', '\n', 'x', ',', 'y', '\n'])).1)
                      add_a_column).map (fun k =>
                        (lookupField (add_a_column (mkRecord
                          (parseLine (readLine (['a', ',', 'b', '\n', 'x', ',', 'y', '\n'])).1)
                          vals)) k).getD []))
                    ++ ['\n'])).flatten)
        ∧ parseLine (writeHeaderLine (derivedOrder
              (parseLine (readLine (['a', ',', 'b', '\n', 'x', ',', 'y', '\n'])).1)
              add_a_column))
          = specOutputOrder (parseLine (readLine (['a', ',', 'b', '\n', 'x', ',', 'y', '\n'])).1)
              ((add_a_column (probeRecord
                  (parseLine (readLine (['a', ',', 'b', '\n', 'x', ',', 'y', '\n'])).1))).map
                Prod.fst)) :=
  ⟨⟨by decide, by decide, by decide⟩,
    chunk_processor_output_order (['a', ',', 'b', '\n', 'x', ',', 'y', '\n']) add_a_column
      (by decide) (by decide) (by decide)⟩

/-- Claim C6: running the full pipeline with the identity transformer on a
well-formed input yields an output with the same header field list and the
same data rows in the same order as the input. -/
theorem identity_round_trip (cpu maxp : Nat) (hcpu : 1 ≤ cpu) (c : List Char)
    (hwf : WellFormed c) :
    ∃ out, process_csv cpu c (pureTf identity) maxp = .finished out ∧
      fieldnamesOf out = fieldnamesOf c ∧ bodyRows out = bodyRows c := by
  obtain ⟨hnd, hhdrne, hcr, hq, harity⟩ := hwf
  have hclean : ∀ k ∈ derivedOrder (fieldnamesOf c) identity, '\n' ∉ k := by
    rw [derivedOrder_identity]
    exact fun k hk => (fieldnamesOf_clean c k hk).2
  have hmem : ∀ vals ∈ bodyRows c, ∀ kv ∈ identity (mkRecord (fieldnamesOf c) vals),
      kv.1 ∈ derivedOrder (fieldnamesOf c) identity := by
    rw [derivedOrder_identity]
    intro vals hv kv hkv
    obtain ⟨k, v⟩ := kv
    unfold identity mkRecord at hkv
    exact (List.of_mem_zip hkv).1
  have hrun := pipeline_run cpu maxp hcpu c identity hclean hmem
    (collectQueue (workerOutputs cpu c (pureTf identity))) (List.Perm.refl _)
  rw [derivedOrder_identity] at hrun
  have hser : (bodyRows c).map (fun vals =>
        serializeRow (fieldnamesOf c) (identity (mkRecord (fieldnamesOf c) vals)))
      = (bodyRows c).map (fun vals => joinComma vals ++ ['\n']) := by
    refine List.map_congr_left ?_
    intro vals hv
    exact serializeRow_identity (fieldnamesOf c) vals hnd (harity vals hv)
  rw [hser] at hrun
  refine ⟨_, hrun, ?_, ?_⟩
  · show parseLine (readLine _).1 = _
    rw [readLine_writeHeaderLine (fun k hk => (fieldnamesOf_clean c k hk).2)]
    exact parseLine_writeHeaderLine (fieldnamesOf_ne_nil c)
      (fun k hk => (fieldnamesOf_clean c k hk).1)
  · show csvRows (readLine _).2 = _
    rw [readLine_writeHeaderLine (fun k hk => (fieldnamesOf_clean c k hk).2)]
    exact csvRows_joined (bodyRows c) (bodyRows_spec c)

/-- Witness for identity_round_trip at a concrete input. -/
theorem identity_round_trip_witness :
    (1 ≤ 2 ∧ WellFormed (['a', ',', 'b', '\n', 'x', ',', 'y', '\n'])) ∧
      ∃ out, process_csv 2 (['a', ',', 'b', '\n', 'x', ',', 'y', '\n'])
            (pureTf identity) 6 = .finished out ∧
        fieldnamesOf out = fieldnamesOf (['a', ',', 'b', '\n', 'x', ',', 'y', '\n']) ∧
        bodyRows out = bodyRows (['a', ',', 'b', '\n', 'x', ',', 'y', '\n']) :=
  ⟨⟨by decide, by decide⟩, identity_round_trip 2 6 (by decide) _ (by decide)⟩

/-- Claim C9: the max_procs parameter has no influence on the result of
process_csv; split always runs with its default chunk count and one worker is
started per chunk, so runs with any two max_procs values coincide. -/
theorem max_procs_no_influence (cpu : Nat) (c : List Char)
    (Tf : Record → Except PyError Record) (m₁ m₂ : Nat) :
    process_csv cpu c Tf m₁ = process_csv cpu c Tf m₂ := rfl

end CsvMulti
